import Mathlib

/-!
Verification of the top-K size tracker of the `fatass` utility
(`src/main.rs`), a tool that scans a directory tree and reports the
largest files.  The Rust source is embedded shallowly:

* `FileData` mirrors `struct FileData { path: String, size: u64 }`;
  sizes are modelled as `Nat` (every operation on sizes in the source is
  a comparison, so no wraparound can occur below `2^64`).
* `reverse_binary_search_insert_index` mirrors the Rust function of the
  same name.  The Rust `while low != high` loop is modelled with an
  explicit fuel argument; since `high - low` strictly decreases on every
  iteration, fuel `arr.length` (the initial value of `high - low`)
  always suffices, which `rbsLoop_fuel_irrelevant`-style reasoning below
  makes precise.  On an empty slice the source evaluates
  `arr[arr.len() - 1]`, which panics (underflow / out of bounds); that
  path is modelled as `Except.error ()`.
* `step` mirrors one iteration of the `for entry in walker` loop in
  `main` (lines 171-194): the fill branch, the one-time reorder branch,
  and the search-and-splice branch.  `Vec::insert` followed by
  `Vec::pop` is modelled by `insertAt` followed by `List.dropLast`.
* `FileData.get_str_size` mirrors the `f64` computation of the source
  exactly.  The cast `self.size as f64` rounds the u64 to the nearest
  representable value, ties to even (`roundToF64`; the result is again
  an integer, and equals the input below `2^53`).  The running `f64`
  value after `k` divisions by `1024.0` is then the dyadic rational
  `roundToF64 size / 1024^k` (division by `1024 = 2^10` is exact in
  binary floating point), so the model carries the pair
  `(roundToF64 size, k)` instead of the scaled value.
  `format!("{:.2}", _)` rounds the exact value to two decimals, ties to
  even.
* `cliPhase` mirrors the argument-handling prefix of `main`
  (lines 105-150); the filesystem predicate `Path::exists` is an oracle
  parameter.  Reaching `return` in Rust `fn main() -> ()` terminates the
  process with exit status 0, recorded by `exitCode`.

Definitions named after the spec (`spec_insert_index`,
`spec_format_size`) transcribe the natural-language specification and
are compared with the source model in refinement theorems.
-/

/-- Mirrors `struct FileData { path: String, size: u64 }`. -/
structure FileData where
  path : String
  size : Nat
deriving DecidableEq, Repr

/-- Default element used by `List.getD`; never reached on indices that
are in bounds. -/
def fdDefault : FileData := ⟨"", 0⟩

/-- Size of the entry at index `i`, `arr[i].size` for in-bounds `i`. -/
def sizeAt (arr : List FileData) (i : Nat) : Nat := (arr.getD i fdDefault).size

/-- Ordering relation of `sort_by(|a, b| b.size.cmp(&a.size))`:
`a` may come before `b` iff `b.size ≤ a.size` (descending by size). -/
def sizeDesc (a b : FileData) : Prop := b.size ≤ a.size

instance : DecidableRel sizeDesc := fun a b => Nat.decLe b.size a.size

instance : IsTotal FileData sizeDesc := ⟨fun a b => Nat.le_total b.size a.size⟩

instance : IsTrans FileData sizeDesc :=
  ⟨fun _ _ _ hab hbc => Nat.le_trans hbc hab⟩

/-- Mirrors `biggest_files.sort_by(|a, b| b.size.cmp(&a.size))`.
Rust `sort_by` is a stable sort and `List.insertionSort` is stable, and
a stable sort of a list under a total preorder is unique, so the model
produces the identical list. -/
def sortBySizeDesc (l : List FileData) : List FileData :=
  List.insertionSort sizeDesc l

/-- The sequence is sorted descending by size. -/
def SortedDesc (l : List FileData) : Prop := List.Pairwise sizeDesc l

instance (l : List FileData) : Decidable (SortedDesc l) :=
  inferInstanceAs (Decidable (List.Pairwise sizeDesc l))

/-- The body of `while low != high` in
`reverse_binary_search_insert_index`, with explicit fuel.  Since
`low ≤ high` is invariant, `low != high` is `low < high`.  `high - low`
strictly decreases on every iteration, so any fuel
`≥ high - low` gives the exact loop behaviour (the fuel-0 fallback is
unreachable then).  `(low + high) / 2` is the `mid` of the source; the
`match ... cmp` of the source: `Equal` returns `mid`, `Less` sets
`high = mid`, `Greater` sets `low = mid + 1`. -/
def rbsLoop (arr : List FileData) (target : Nat) : Nat → Nat → Nat → Nat
  | 0, low, _ => low
  | fuel + 1, low, high =>
    if low < high then
      if sizeAt arr ((low + high) / 2) = target then (low + high) / 2
      else if sizeAt arr ((low + high) / 2) < target then
        rbsLoop arr target fuel low ((low + high) / 2)
      else rbsLoop arr target fuel ((low + high) / 2 + 1) high
    else low

/-- Mirrors `fn reverse_binary_search_insert_index(arr: &[FileData],
target_size: &u64) -> Option<usize>`.  On an empty slice the source
evaluates `arr[arr.len() - 1]`, which panics; that is the
`Except.error` case.  Otherwise: if the target is strictly smaller than
the last (smallest) size, `None`; else the loop result from
`[0, arr.len())`. -/
def reverse_binary_search_insert_index (arr : List FileData) (target : Nat) :
    Except Unit (Option Nat) :=
  if arr.length = 0 then .error ()
  else if target < sizeAt arr (arr.length - 1) then .ok none
  else .ok (some (rbsLoop arr target arr.length 0 arr.length))

/-- Mirrors `Vec::insert(i, e)` for `i ≤ l.length` (the source never
calls it with `i > len`, where Rust would panic). -/
def insertAt (i : Nat) (e : FileData) (l : List FileData) : List FileData :=
  l.take i ++ e :: l.drop i

/-- The mutable state of the `for entry in walker` loop of `main`:
the vector `biggest_files` and the flag `reordered`. -/
structure TrackerState where
  files : List FileData
  reordered : Bool
deriving DecidableEq, Repr

/-- One iteration of the loop body of `main` (lines 178-191) on entry
`e`, with `K = fatass_count`:
* `len < K`: push;
* `len == K && reordered == false`: one-time descending sort, the
  offered entry is dropped;
* otherwise: binary-search; `None` skips the entry, `Some i` inserts at
  `i` and pops the last element.  The `error` case propagates the panic
  of `reverse_binary_search_insert_index` on an empty vector. -/
def step (K : Nat) (s : TrackerState) (e : FileData) : Except Unit TrackerState :=
  if s.files.length < K then
    .ok ⟨s.files ++ [e], s.reordered⟩
  else if s.files.length = K ∧ s.reordered = false then
    .ok ⟨sortBySizeDesc s.files, true⟩
  else
    match reverse_binary_search_insert_index s.files e.size with
    | .error u => .error u
    | .ok none => .ok s
    | .ok (some i) => .ok ⟨(insertAt i e s.files).dropLast, s.reordered⟩

/-- Runs the remaining stream of entries from state `s`. -/
def runFrom (K : Nat) (s : TrackerState) : List FileData → Except Unit TrackerState
  | [] => .ok s
  | e :: rest =>
    match step K s e with
    | .error u => .error u
    | .ok t => runFrom K t rest

/-- The whole `for entry in walker` loop of `main`: starts from the
empty vector with `reordered = false` and offers every entry in stream
order. -/
def runAll (K : Nat) (stream : List FileData) : Except Unit TrackerState :=
  runFrom K ⟨[], false⟩ stream

/-- The unit array of `get_str_size`:
`let units: [&str; 8] = ["KB", "MB", "GB", "TB", "PB", "EB", "ZB", "YB"]`. -/
def sizeUnits : List String := ["KB", "MB", "GB", "TB", "PB", "EB", "ZB", "YB"]

/-- The `for unit in units` loop of `get_str_size`.  The running `f64`
value after `k` exact divisions by `1024.0` is `n / 1024^k`, carried
here as the pair `(n, k)`; `size < 1024.0` is `n < 1024^(k+1)`.
Returns the number of divisions performed and the final suffix. -/
def sizeLoop (n : Nat) : List String → Nat → String → Nat × String
  | [], k, suffix => (k, suffix)
  | u :: rest, k, suffix =>
    if n < 1024 ^ (k + 1) then (k, suffix)
    else sizeLoop n rest (k + 1) u

/-- Renders the non-integer value `n / d` with two decimal places,
as `format!("{:.2}", _)` does on the exact binary value: round to the
nearest multiple of `1/100`, ties to even. -/
def twoDecimals (n d : Nat) : String :=
  let q := (100 * n) / d
  let r := (100 * n) % d
  let m := if 2 * r < d then q
           else if d < 2 * r then q + 1
           else if q % 2 = 0 then q else q + 1
  toString (m / 100) ++ "." ++
    (if m % 100 < 10 then "0" ++ toString (m % 100) else toString (m % 100))

/-- Renders the scaled value `n / 1024^k` followed by the suffix:
`format!("{:.0}", size)` when `size.fract() == 0.0` (the value is an
integer, i.e. `1024^k ∣ n`), `format!("{:.2}", size)` otherwise. -/
def renderSize (n k : Nat) (suffix : String) : String :=
  (if 1024 ^ k ∣ n then toString (n / 1024 ^ k) else twoDecimals n (1024 ^ k))
    ++ " " ++ suffix

/-- Number of binary digits of `n`, with fuel so that it reduces in the
kernel; `bitLen 64 n` is exact for every `n < 2^64`. -/
def bitLen : Nat → Nat → Nat
  | 0, _ => 0
  | fuel + 1, n => if n = 0 then 0 else bitLen fuel (n / 2) + 1

/-- Mirrors the cast `self.size as f64`: round the u64 to the nearest
f64-representable value, ties to even (every u64 is far below the f64
overflow threshold, and the result is again an integer).  Exact for
`n ≤ 2^53`; above that the unit in the last place is `2^(e-52)` where
`2^e ≤ n < 2^(e+1)`. -/
def roundToF64 (n : Nat) : Nat :=
  if n ≤ 2 ^ 53 then n
  else
    let ulp := 2 ^ (bitLen 64 n - 1 - 52)
    let q := n / ulp
    let r := n % ulp
    if 2 * r < ulp then q * ulp
    else if ulp < 2 * r then (q + 1) * ulp
    else if q % 2 = 0 then q * ulp else (q + 1) * ulp

/-- Mirrors `FileData::get_str_size` (lines 28-49): cast the byte count
to `f64` (rounding to the nearest representable integer), scale it down
by 1024 through the unit suffixes, then render with 0 decimal places
when the scaled value is an exact integer and 2 decimal places
otherwise. -/
def FileData.get_str_size (f : FileData) : String :=
  let n := roundToF64 f.size
  let sc := sizeLoop n sizeUnits 0 "Bytes"
  renderSize n sc.1 sc.2

/-- The rows of the final table (lines 197-204): for each entry of
`biggest_files`, in vector order, the path and the human-readable
size. -/
def renderRows (files : List FileData) : List (String × String) :=
  files.map fun f => (f.path, f.get_str_size)

/-- Mirrors `args.iter().position(|arg| arg == long || arg == short)`. -/
def findFlag (args : List String) (long short : String) : Option Nat :=
  args.findIdx? fun a => a = long || a = short

/-- Mirrors `str::parse::<usize>` on a 64-bit target: an optional
leading `+`, then one or more ASCII digits, value below `2^64`. -/
def parseUsize (s : String) : Option Nat :=
  let digits :=
    match s.toList with
    | '+' :: rest => rest
    | cs => cs
  if digits = [] then none
  else if digits.all Char.isDigit then
    let v := digits.foldl (fun acc c => 10 * acc + (c.toNat - 48)) 0
    if v < 2 ^ 64 then some v else none
  else none

/-- Outcome of the argument-handling prefix of `main` (lines 105-150),
before any directory traversal. -/
inductive CliOutcome where
  | helpShown : CliOutcome
  | earlyError : String → CliOutcome
  | traverse : String → Nat → CliOutcome
deriving DecidableEq, Repr

/-- Mirrors `main` up to the traversal (lines 105-150).  `pathExists`
is the oracle for `Path::new(v).exists()`.  The help flag is checked
first; then the path flag (its value must exist on disk); then the
count flag (its value must parse as `usize`).  Defaults: path `./`,
count 100.  Every `eprintln! + return` path is an `earlyError`. -/
def cliPhase (args : List String) (pathExists : String → Bool) : CliOutcome :=
  match findFlag args "--help" "-h" with
  | some _ => .helpShown
  | none =>
    let pathRes : Except String String :=
      match findFlag args "--path" "-p" with
      | none => .ok "./"
      | some i =>
        match args.get? (i + 1) with
        | none => .error "Error: No value provided after --path option."
        | some v =>
          if pathExists v then .ok v
          else .error "Error: Invalid path. Please provide a valid path."
    match pathRes with
    | .error m => .earlyError m
    | .ok sp =>
      match findFlag args "--count" "-c" with
      | none => .traverse sp 100
      | some i =>
        match args.get? (i + 1) with
        | none => .earlyError "Error: No value provided after --count option."
        | some v =>
          match parseUsize v with
          | none => .earlyError "Error: Invalid count value. Please provide a valid number."
          | some c => .traverse sp c

/-- Process exit status of each outcome.  Rust `fn main() -> ()`
terminates with status 0 on every `return`, including the error paths
(the source never calls `std::process::exit` and never panics in the
argument phase), so every outcome exits 0. -/
def exitCode : CliOutcome → Nat
  | _ => 0

/-- Whether the outcome reaches the directory traversal. -/
def reachesTraversal : CliOutcome → Bool
  | .traverse _ _ => true
  | _ => false

/-- Modelled from the spec, §4: the insertion-index loop in its words —
maintain a half-open range `[low, high)` starting at `[0, length)`; if
the midpoint size is strictly greater than the target, `low = mid + 1`;
if it is less than or equal to the target, `high = mid`; when
`low == high`, that index is the answer.  Same fuel convention as
`rbsLoop`. -/
def specSearchLoop (arr : List FileData) (target : Nat) : Nat → Nat → Nat → Nat
  | 0, low, _ => low
  | fuel + 1, low, high =>
    if low < high then
      if target < sizeAt arr ((low + high) / 2) then
        specSearchLoop arr target fuel ((low + high) / 2 + 1) high
      else specSearchLoop arr target fuel low ((low + high) / 2)
    else low

/-- Modelled from the spec, §4: the index computed by the spec loop on
the full range `[0, length)`. -/
def spec_insert_index (arr : List FileData) (target : Nat) : Nat :=
  specSearchLoop arr target arr.length 0 arr.length

/-- Modelled from the spec, §6: repeatedly divide by 1024 while the
value is `≥ 1024`, advancing through the unit suffixes
Bytes, KB, MB, GB, TB, PB, EB, ZB, YB; stop as soon as the scaled value
is `< 1024` or the units are exhausted.  Same `(n, k)` carrying as
`sizeLoop`. -/
def specScale (n : Nat) : Nat → String → List String → Nat × String
  | k, cur, [] => (k, cur)
  | k, cur, u :: rest =>
    if 1024 ^ (k + 1) ≤ n then specScale n (k + 1) u rest
    else (k, cur)

/-- Modelled from the spec, §6: the full human-readable size string —
scale through the suffixes, then render with 0 decimal places when the
scaled value is an exact integer and 2 decimal places otherwise,
followed by the unit name. -/
def spec_format_size (n : Nat) : String :=
  let sc := specScale n 0 "Bytes" ["KB", "MB", "GB", "TB", "PB", "EB", "ZB", "YB"]
  renderSize n sc.1 sc.2

/-! ## Basic lemmas about the embedding -/

theorem sizeAt_eq_getElem (l : List FileData) (j : Nat) (h : j < l.length) :
    sizeAt l j = l[j].size := by
  unfold sizeAt
  rw [List.getD_eq_getElem l fdDefault h]

theorem sortedDesc_iff_sizeAt (l : List FileData) :
    SortedDesc l ↔ ∀ i j, i < j → j < l.length → sizeAt l j ≤ sizeAt l i := by
  unfold SortedDesc
  rw [List.pairwise_iff_getElem]
  constructor
  · intro h i j hij hj
    rw [sizeAt_eq_getElem l i (lt_trans hij hj), sizeAt_eq_getElem l j hj]
    exact h i j (lt_trans hij hj) hj hij
  · intro h i j hi hj hij
    have hh := h i j hij hj
    rw [sizeAt_eq_getElem l i hi, sizeAt_eq_getElem l j hj] at hh
    exact hh

theorem sortedDesc_dropLast {l : List FileData} (h : SortedDesc l) :
    SortedDesc l.dropLast :=
  List.Pairwise.sublist (List.dropLast_sublist l) h

theorem sortedDesc_sortBySizeDesc (l : List FileData) :
    SortedDesc (sortBySizeDesc l) :=
  List.sorted_insertionSort sizeDesc l

theorem length_sortBySizeDesc (l : List FileData) :
    (sortBySizeDesc l).length = l.length :=
  List.length_insertionSort sizeDesc l

theorem mem_sortBySizeDesc {l : List FileData} {f : FileData} :
    f ∈ sortBySizeDesc l ↔ f ∈ l :=
  (List.perm_insertionSort sizeDesc l).mem_iff

theorem length_insertAt (i : Nat) (e : FileData) (l : List FileData)
    (h : i ≤ l.length) : (insertAt i e l).length = l.length + 1 := by
  unfold insertAt
  simp [List.length_take, List.length_drop]
  omega

theorem mem_of_mem_insertAt {i : Nat} {e f : FileData} {l : List FileData}
    (h : f ∈ insertAt i e l) : f = e ∨ f ∈ l := by
  unfold insertAt at h
  rcases List.mem_append.mp h with h1 | h1
  · exact Or.inr (List.Sublist.mem h1 (List.take_sublist i l))
  · rcases List.mem_cons.mp h1 with h2 | h2
    · exact Or.inl h2
    · exact Or.inr (List.Sublist.mem h2 (List.drop_sublist i l))

theorem sortedDesc_insertAt {l : List FileData} {e : FileData} {i : Nat}
    (hsort : SortedDesc l) (hi : i ≤ l.length)
    (hbefore : ∀ j, j < i → e.size ≤ sizeAt l j)
    (hafter : ∀ j, i ≤ j → j < l.length → sizeAt l j ≤ e.size) :
    SortedDesc (insertAt i e l) := by
  unfold insertAt SortedDesc
  rw [List.pairwise_append]
  refine ⟨List.Pairwise.sublist (List.take_sublist i l) hsort, ?_, ?_⟩
  · rw [List.pairwise_cons]
    refine ⟨?_, List.Pairwise.sublist (List.drop_sublist i l) hsort⟩
    intro b hb
    rcases List.mem_iff_getElem.mp hb with ⟨n, hn, rfl⟩
    rw [List.getElem_drop]
    have hlen : i + n < l.length := by
      have := hn
      simp [List.length_drop] at this
      omega
    have := hafter (i + n) (Nat.le_add_right i n) hlen
    rw [sizeAt_eq_getElem l (i + n) hlen] at this
    exact this
  · intro a ha b hb
    rcases List.mem_iff_getElem.mp ha with ⟨n, hn, rfl⟩
    have hni : n < i := by
      have := hn
      simp [List.length_take] at this
      omega
    have hnlen : n < l.length := by omega
    rw [List.getElem_take]
    have hna := hbefore n hni
    rw [sizeAt_eq_getElem l n hnlen] at hna
    rcases List.mem_cons.mp hb with rfl | hb2
    · exact hna
    · rcases List.mem_iff_getElem.mp hb2 with ⟨m, hm, rfl⟩
      rw [List.getElem_drop]
      have hmlen : i + m < l.length := by
        have := hm
        simp [List.length_drop] at this
        omega
      have hmb := hafter (i + m) (Nat.le_add_right i m) hmlen
      rw [sizeAt_eq_getElem l (i + m) hmlen] at hmb
      exact le_trans hmb hna

/-! ## The binary-search loop -/

theorem rbsLoop_spec (arr : List FileData) (target : Nat)
    (hsort : ∀ i j, i < j → j < arr.length → sizeAt arr j ≤ sizeAt arr i) :
    ∀ fuel low high, high - low ≤ fuel → low ≤ high → high ≤ arr.length →
      (∀ j, j < low → target < sizeAt arr j) →
      (∀ j, high ≤ j → j < arr.length → sizeAt arr j < target) →
      low ≤ rbsLoop arr target fuel low high ∧
      rbsLoop arr target fuel low high ≤ high ∧
      (∀ j, j < rbsLoop arr target fuel low high → target ≤ sizeAt arr j) ∧
      (∀ j, rbsLoop arr target fuel low high ≤ j → j < arr.length →
        sizeAt arr j ≤ target) := by
  intro fuel
  induction fuel with
  | zero =>
    intro low high hfuel hlh hha hlow hhigh
    have heq : low = high := by omega
    subst heq
    simp only [rbsLoop]
    exact ⟨le_refl low, le_refl low,
      fun j hj => le_of_lt (hlow j hj),
      fun j hj hjlen => le_of_lt (hhigh j hj hjlen)⟩
  | succ fuel ih =>
    intro low high hfuel hlh hha hlow hhigh
    by_cases hlt : low < high
    · have hmidlo : low ≤ (low + high) / 2 := by omega
      have hmidhi : (low + high) / 2 < high := by omega
      have hmidlen : (low + high) / 2 < arr.length := by omega
      by_cases heq : sizeAt arr ((low + high) / 2) = target
      · simp only [rbsLoop, if_pos hlt, if_pos heq]
        refine ⟨hmidlo, le_of_lt hmidhi, ?_, ?_⟩
        · intro j hj
          by_cases hjlow : j < low
          · exact le_of_lt (hlow j hjlow)
          · have := hsort j ((low + high) / 2) hj hmidlen
            omega
        · intro j hj hjlen
          rcases Nat.eq_or_lt_of_le hj with h | h
          · rw [← h]
            exact le_of_eq heq
          · have := hsort ((low + high) / 2) j h hjlen
            omega
      · by_cases hless : sizeAt arr ((low + high) / 2) < target
        · simp only [rbsLoop, if_pos hlt, if_neg heq, if_pos hless]
          have hhigh2 : ∀ j, (low + high) / 2 ≤ j → j < arr.length →
              sizeAt arr j < target := by
            intro j hj hjlen
            rcases Nat.eq_or_lt_of_le hj with h | h
            · rw [← h]
              exact hless
            · have := hsort ((low + high) / 2) j h hjlen
              omega
          obtain ⟨h1, h2, h3, h4⟩ :=
            ih low ((low + high) / 2) (by omega) hmidlo (by omega) hlow hhigh2
          exact ⟨h1, by omega, h3, h4⟩
        · simp only [rbsLoop, if_pos hlt, if_neg heq, if_neg hless]
          have hgt : target < sizeAt arr ((low + high) / 2) := by omega
          have hlow2 : ∀ j, j < (low + high) / 2 + 1 → target < sizeAt arr j := by
            intro j hj
            by_cases hjlow : j < low
            · exact hlow j hjlow
            · have hjmid : j ≤ (low + high) / 2 := by omega
              rcases Nat.eq_or_lt_of_le hjmid with h | h
              · rw [h]
                exact hgt
              · have := hsort j ((low + high) / 2) h hmidlen
                omega
          obtain ⟨h1, h2, h3, h4⟩ :=
            ih ((low + high) / 2 + 1) high (by omega) (by omega) hha hlow2 hhigh
          exact ⟨by omega, h2, h3, h4⟩
    · have heq : low = high := by omega
      subst heq
      simp only [rbsLoop, if_neg hlt]
      exact ⟨le_refl low, le_refl low,
        fun j hj => le_of_lt (hlow j hj),
        fun j hj hjlen => le_of_lt (hhigh j hj hjlen)⟩

theorem rbsLoop_eq_specSearchLoop (arr : List FileData) (target : Nat)
    (hnot : ∀ j, j < arr.length → sizeAt arr j ≠ target) :
    ∀ fuel low high, high ≤ arr.length →
      rbsLoop arr target fuel low high = specSearchLoop arr target fuel low high := by
  intro fuel
  induction fuel with
  | zero => intro low high _; rfl
  | succ fuel ih =>
    intro low high hha
    by_cases hlt : low < high
    · have hmidlen : (low + high) / 2 < arr.length := by omega
      have hne := hnot _ hmidlen
      by_cases hless : sizeAt arr ((low + high) / 2) < target
      · simp only [rbsLoop, specSearchLoop, if_pos hlt, if_neg hne, if_pos hless,
          if_neg (by omega : ¬ target < sizeAt arr ((low + high) / 2))]
        exact ih low ((low + high) / 2) (by omega)
      · simp only [rbsLoop, specSearchLoop, if_pos hlt, if_neg hne, if_neg hless,
          if_pos (by omega : target < sizeAt arr ((low + high) / 2))]
        exact ih ((low + high) / 2 + 1) high hha
    · simp only [rbsLoop, specSearchLoop, if_neg hlt]

/-! ## The insertion function on sorted non-empty vectors -/

theorem rbsii_ok_some (arr : List FileData) (target : Nat)
    (hne : arr.length ≠ 0) (hsort : SortedDesc arr)
    (hge : ¬ target < sizeAt arr (arr.length - 1)) :
    ∃ i, reverse_binary_search_insert_index arr target = .ok (some i) ∧
      i ≤ arr.length ∧ (∀ j, j < i → target ≤ sizeAt arr j) ∧
      (∀ j, i ≤ j → j < arr.length → sizeAt arr j ≤ target) := by
  unfold reverse_binary_search_insert_index
  rw [if_neg hne, if_neg hge]
  obtain ⟨h1, h2, h3, h4⟩ := rbsLoop_spec arr target
    ((sortedDesc_iff_sizeAt arr).mp hsort)
    arr.length 0 arr.length (by omega) (Nat.zero_le _) (le_refl _)
    (fun j hj => absurd hj (Nat.not_lt_zero j))
    (fun j hj hjlen => absurd hjlen (by omega))
  exact ⟨_, rfl, h2, h3, h4⟩

/-! ## Lemmas about single loop iterations and runs -/

theorem step_at_capacity (K : Nat) (s : TrackerState) (e : FileData)
    (hlen : s.files.length = K) (hro : s.reordered = false) :
    step K s e = .ok ⟨sortBySizeDesc s.files, true⟩ := by
  unfold step
  rw [if_neg (by omega), if_pos ⟨hlen, hro⟩]

theorem step_sorted (K : Nat) (s : TrackerState) (e : FileData)
    (hlen : s.files.length = K) (hK : 1 ≤ K) (hro : s.reordered = true)
    (hsort : SortedDesc s.files) :
    ∃ t, step K s e = .ok t ∧ t.files.length = K ∧ t.reordered = true ∧
      SortedDesc t.files ∧ ∀ f ∈ t.files, f ∈ s.files ∨ f = e := by
  have h1 : ¬ s.files.length < K := by omega
  have h2 : ¬ (s.files.length = K ∧ s.reordered = false) := by simp [hro]
  have hne : s.files.length ≠ 0 := by omega
  unfold step
  rw [if_neg h1, if_neg h2]
  by_cases hlt : e.size < sizeAt s.files (s.files.length - 1)
  · have hnone : reverse_binary_search_insert_index s.files e.size = .ok none := by
      unfold reverse_binary_search_insert_index
      rw [if_neg hne, if_pos hlt]
    rw [hnone]
    exact ⟨s, rfl, hlen, hro, hsort, fun f hf => Or.inl hf⟩
  · obtain ⟨i, heq, hile, hbefore, hafter⟩ :=
      rbsii_ok_some s.files e.size hne hsort hlt
    rw [heq]
    refine ⟨⟨(insertAt i e s.files).dropLast, s.reordered⟩, rfl, ?_, hro, ?_, ?_⟩
    · rw [List.length_dropLast, length_insertAt i e s.files hile]
      omega
    · exact sortedDesc_dropLast (sortedDesc_insertAt hsort hile hbefore hafter)
    · intro f hf
      have hmem : f ∈ insertAt i e s.files :=
        List.Sublist.mem hf (List.dropLast_sublist _)
      rcases mem_of_mem_insertAt hmem with h | h
      · exact Or.inr h
      · exact Or.inl h

theorem runFrom_fill (K : Nat) :
    ∀ (rest acc : List FileData), acc.length + rest.length ≤ K →
      runFrom K ⟨acc, false⟩ rest = .ok ⟨acc ++ rest, false⟩ := by
  intro rest
  induction rest with
  | nil =>
    intro acc h
    simp [runFrom]
  | cons e tl ih =>
    intro acc h
    have hlt : acc.length < K := by
      simp [List.length_cons] at h
      omega
    have hstep : step K ⟨acc, false⟩ e = .ok ⟨acc ++ [e], false⟩ := by
      unfold step
      rw [if_pos hlt]
    have hlen : acc.length + tl.length + 1 ≤ K := by
      simp [List.length_cons] at h
      omega
    simp only [runFrom]
    rw [hstep]
    show runFrom K ⟨acc ++ [e], false⟩ tl = Except.ok ⟨acc ++ e :: tl, false⟩
    rw [ih (acc ++ [e]) (by simp; omega)]
    simp

theorem runFrom_append (K : Nat) :
    ∀ (l1 l2 : List FileData) (s : TrackerState),
      runFrom K s (l1 ++ l2) =
        match runFrom K s l1 with
        | .error u => .error u
        | .ok t => runFrom K t l2 := by
  intro l1
  induction l1 with
  | nil => intro l2 s; rfl
  | cons e tl ih =>
    intro l2 s
    simp only [List.cons_append, runFrom]
    cases step K s e with
    | error u => rfl
    | ok t => exact ih l2 t

theorem runFrom_sorted (K : Nat) (hK : 1 ≤ K) :
    ∀ (B : List FileData) (s : TrackerState),
      s.files.length = K → s.reordered = true → SortedDesc s.files →
      ∃ t, runFrom K s B = .ok t ∧ t.files.length = K ∧ t.reordered = true ∧
        SortedDesc t.files ∧ ∀ f ∈ t.files, f ∈ s.files ∨ f ∈ B := by
  intro B
  induction B with
  | nil =>
    intro s h1 h2 h3
    exact ⟨s, rfl, h1, h2, h3, fun f hf => Or.inl hf⟩
  | cons e tl ih =>
    intro s h1 h2 h3
    obtain ⟨t, hstep, ht1, ht2, ht3, ht4⟩ := step_sorted K s e h1 hK h2 h3
    obtain ⟨u, hrun, hu1, hu2, hu3, hu4⟩ := ih t ht1 ht2 ht3
    refine ⟨u, ?_, hu1, hu2, hu3, ?_⟩
    · simp only [runFrom]
      rw [hstep]
      exact hrun
    · intro f hf
      rcases hu4 f hf with h | h
      · rcases ht4 f h with h5 | h5
        · exact Or.inl h5
        · subst h5
          exact Or.inr (List.mem_cons_self f tl)
      · exact Or.inr (List.mem_cons_of_mem e h)

theorem step_inv (K : Nat) (s t : TrackerState) (e : FileData)
    (hstep : step K s e = .ok t)
    (h1 : s.files.length ≤ K)
    (h2 : s.reordered = true → s.files.length = K ∧ SortedDesc s.files) :
    t.files.length ≤ K ∧
      (t.reordered = true → t.files.length = K ∧ SortedDesc t.files) := by
  by_cases hlt : s.files.length < K
  · have hpush : step K s e = .ok ⟨s.files ++ [e], s.reordered⟩ := by
      unfold step
      rw [if_pos hlt]
    rw [hpush] at hstep
    injection hstep with h
    subst h
    refine ⟨by simp [List.length_append]; omega, ?_⟩
    intro hro
    obtain ⟨hl, _⟩ := h2 hro
    omega
  · by_cases hcap : s.files.length = K ∧ s.reordered = false
    · have hsortstep := step_at_capacity K s e hcap.1 hcap.2
      rw [hsortstep] at hstep
      injection hstep with h
      subst h
      refine ⟨by rw [length_sortBySizeDesc]; omega, ?_⟩
      intro _
      exact ⟨by rw [length_sortBySizeDesc]; exact hcap.1, sortedDesc_sortBySizeDesc _⟩
    · have hro : s.reordered = true := by
        rcases Bool.eq_false_or_eq_true s.reordered with h | h
        · exact h
        · exact absurd
            (⟨by omega, h⟩ : s.files.length = K ∧ s.reordered = false) hcap
      obtain ⟨hlenK, hsort⟩ := h2 hro
      by_cases hK : 1 ≤ K
      · obtain ⟨t2, hstep2, a, b, c, _⟩ := step_sorted K s e hlenK hK hro hsort
        rw [hstep2] at hstep
        injection hstep with h
        subst h
        exact ⟨le_of_eq a, fun _ => ⟨a, c⟩⟩
      · exfalso
        have hlen0 : s.files.length = 0 := by omega
        have herr : step K s e = .error () := by
          unfold step
          rw [if_neg hlt, if_neg hcap]
          have hpanic : reverse_binary_search_insert_index s.files e.size = .error () := by
            unfold reverse_binary_search_insert_index
            rw [if_pos hlen0]
          rw [hpanic]
        rw [herr] at hstep
        exact Except.noConfusion hstep

theorem runFrom_inv (K : Nat) :
    ∀ (stream : List FileData) (s t : TrackerState),
      runFrom K s stream = .ok t →
      s.files.length ≤ K →
      (s.reordered = true → s.files.length = K ∧ SortedDesc s.files) →
      t.files.length ≤ K ∧
        (t.reordered = true → t.files.length = K ∧ SortedDesc t.files) := by
  intro stream
  induction stream with
  | nil =>
    intro s t h h1 h2
    simp only [runFrom] at h
    injection h with h
    subst h
    exact ⟨h1, h2⟩
  | cons e tl ih =>
    intro s t h h1 h2
    simp only [runFrom] at h
    cases hstep : step K s e with
    | error u =>
      rw [hstep] at h
      exact Except.noConfusion h
    | ok m =>
      rw [hstep] at h
      obtain ⟨m1, m2⟩ := step_inv K s m e hstep h1 h2
      exact ih m t h m1 m2

/-! ## The size-formatting loop matches its specification -/

theorem sizeLoop_eq_specScale (n : Nat) :
    ∀ (us : List String) (k : Nat) (cur : String),
      sizeLoop n us k cur = specScale n k cur us := by
  intro us
  induction us with
  | nil => intro k cur; rfl
  | cons u rest ih =>
    intro k cur
    simp only [sizeLoop, specScale]
    by_cases h : n < 1024 ^ (k + 1)
    · rw [if_pos h, if_neg (by omega)]
    · rw [if_neg h, if_pos (by omega)]
      exact ih (k + 1) u

/-! ## Claim theorems -/

/-- C1: the claim states that for stream length `≥ K` the final
collection is the `K` largest sizes of the input sorted descending.
The code violates it: the entry offered while the vector already holds
`K` entries and `reordered` is still false only triggers the one-time
sort and is itself dropped.  At `K = 1` with sizes `[1, 100]` the run
keeps `[1]`, while the one largest size of the input is `100` (the head
of the descending sort of the input). -/
theorem reorder_step_drops_offered_entry :
    runAll 1 [⟨"a", 1⟩, ⟨"b", 100⟩] = .ok ⟨[⟨"a", 1⟩], true⟩ ∧
    sortBySizeDesc [⟨"a", 1⟩, ⟨"b", 100⟩] = [⟨"b", 100⟩, ⟨"a", 1⟩] ∧
    ([⟨"a", 1⟩] : List FileData) ≠ [⟨"b", 100⟩] := by
  exact ⟨rfl, rfl, by decide⟩

/-- C2: for capacity `K ≥ 1` and a stream holding exactly `K` entries
before `e` (so `e` is offered while the collection holds `K` entries
and the one-time sort has not yet happened), the run succeeds and `e`
never appears in the final result, no matter how large its size — here
stated via its identifier, assuming no other entry shares it. -/
theorem dropped_entry_never_in_final_result (K : Nat) (A B : List FileData)
    (e : FileData) (hK : 1 ≤ K) (hA : A.length = K)
    (hfreshA : ∀ f ∈ A, f.path ≠ e.path)
    (hfreshB : ∀ f ∈ B, f.path ≠ e.path) :
    ∃ t, runAll K (A ++ e :: B) = .ok t ∧ ∀ f ∈ t.files, f.path ≠ e.path := by
  have hfill : runFrom K ⟨[], false⟩ A = .ok ⟨A, false⟩ := by
    have := runFrom_fill K A [] (by simp [hA])
    simpa using this
  have hchain : runAll K (A ++ e :: B) = runFrom K ⟨sortBySizeDesc A, true⟩ B := by
    unfold runAll
    rw [runFrom_append K A (e :: B) ⟨[], false⟩, hfill]
    show runFrom K ⟨A, false⟩ (e :: B) = _
    simp only [runFrom]
    rw [step_at_capacity K ⟨A, false⟩ e hA rfl]
  obtain ⟨t, hrun, _, _, _, hmem⟩ := runFrom_sorted K hK B ⟨sortBySizeDesc A, true⟩
    (by rw [length_sortBySizeDesc]; exact hA) rfl (sortedDesc_sortBySizeDesc A)
  refine ⟨t, by rw [hchain]; exact hrun, ?_⟩
  intro f hf
  rcases hmem f hf with h | h
  · exact hfreshA f (mem_sortBySizeDesc.mp h)
  · exact hfreshB f h

/-- C2 witness: at `K = 1`, the second entry (size 100, far larger than
everything else) is dropped and absent from the final result. -/
theorem dropped_entry_never_in_final_result_witness :
    ∃ t, runAll 1 ([⟨"a", 1⟩] ++ ⟨"b", 100⟩ :: [⟨"c", 2⟩]) = .ok t ∧
      ∀ f ∈ t.files, f.path ≠ "b" :=
  dropped_entry_never_in_final_result 1 [⟨"a", 1⟩] [⟨"c", 2⟩] ⟨"b", 100⟩
    (by decide) (by decide) (by decide) (by decide)

/-- C3: the claim states that capacity 0 always yields an empty result.
With zero or one entries it does; but with two or more entries the
third loop branch calls `reverse_binary_search_insert_index` on the
empty vector, where the source panics on `arr[arr.len() - 1]`, so the
process aborts instead of reporting an empty result. -/
theorem zero_capacity_panics_instead_of_empty :
    runAll 0 [⟨"a", 1⟩, ⟨"b", 2⟩] = .error () ∧
    runAll 0 [⟨"a", 1⟩] = .ok ⟨[], true⟩ ∧
    runAll 0 [] = .ok ⟨[], false⟩ := by
  exact ⟨rfl, rfl, rfl⟩

/-- C4: the claim states offers never fail for any `K` including 0.
Evaluation of the code model: at capacity 0, the offer made from the
reachable state `⟨[], true⟩` hits `arr[arr.len() - 1]` on the empty
vector and panics; a whole run with three entries aborts the same
way. -/
theorem offer_panics_at_zero_capacity :
    step 0 ⟨[], true⟩ ⟨"c", 7⟩ = .error () ∧
    reverse_binary_search_insert_index [] 7 = .error () ∧
    runAll 0 [⟨"x", 3⟩, ⟨"y", 4⟩, ⟨"z", 5⟩] = .error () := by
  exact ⟨rfl, rfl, rfl⟩

/-- C5 counterexample: at `K = 3` with stream sizes `[10, 50]` (length
below capacity) the sort never triggers, so the rendered rows are in
offer order `10, 50`, not the descending order `50, 10` the claim
requires. -/
theorem underfilled_result_not_sorted :
    runAll 3 [⟨"a", 10⟩, ⟨"b", 50⟩] = .ok ⟨[⟨"a", 10⟩, ⟨"b", 50⟩], false⟩ ∧
    renderRows [⟨"a", 10⟩, ⟨"b", 50⟩] = [("a", "10 Bytes"), ("b", "50 Bytes")] ∧
    sortBySizeDesc [⟨"a", 10⟩, ⟨"b", 50⟩] = [⟨"b", 50⟩, ⟨"a", 10⟩] ∧
    renderRows [⟨"a", 10⟩, ⟨"b", 50⟩] ≠ renderRows [⟨"b", 50⟩, ⟨"a", 10⟩] := by
  exact ⟨rfl, rfl, rfl, by decide⟩

/-- C5 (amended): for stream length below `K` the final rendered
result contains exactly the input entries in their original offer
order — path plus human-readable size for each, with length equal to
the stream length; it is not sorted descending. -/
theorem underfilled_result_in_offer_order (K : Nat) (stream : List FileData)
    (h : stream.length < K) :
    runAll K stream = .ok ⟨stream, false⟩ ∧
    renderRows stream = stream.map (fun f => (f.path, f.get_str_size)) ∧
    (renderRows stream).length = stream.length := by
  refine ⟨?_, rfl, by simp [renderRows]⟩
  unfold runAll
  have := runFrom_fill K stream [] (by simp; omega)
  simpa using this

/-- C5 witness: the amended claim at `K = 3`, stream sizes `[10, 50]`. -/
theorem underfilled_result_in_offer_order_witness :
    runAll 3 [⟨"a", 10⟩, ⟨"b", 50⟩] = .ok ⟨[⟨"a", 10⟩, ⟨"b", 50⟩], false⟩ ∧
    renderRows [⟨"a", 10⟩, ⟨"b", 50⟩] =
      ([⟨"a", 10⟩, ⟨"b", 50⟩] : List FileData).map
        (fun f => (f.path, f.get_str_size)) ∧
    (renderRows [⟨"a", 10⟩, ⟨"b", 50⟩]).length = 2 := by
  have h := underfilled_result_in_offer_order 3 [⟨"a", 10⟩, ⟨"b", 50⟩] (by decide)
  exact ⟨h.1, h.2.1, h.2.2⟩

/-- C6 counterexample: on the descending-sorted sequence of sizes
`[5, 5, 5]` with target 5 (not smaller than the last size), the source
returns index 1 (it stops at the first midpoint whose size equals the
target), while the loop described by the spec (which has no equality
case and always sets `high = mid` on `≤`) reaches index 0. -/
theorem insert_index_differs_from_spec_loop_on_ties :
    SortedDesc [⟨"a", 5⟩, ⟨"b", 5⟩, ⟨"c", 5⟩] ∧
    ¬ 5 < sizeAt [⟨"a", 5⟩, ⟨"b", 5⟩, ⟨"c", 5⟩] (3 - 1) ∧
    reverse_binary_search_insert_index [⟨"a", 5⟩, ⟨"b", 5⟩, ⟨"c", 5⟩] 5 =
      .ok (some 1) ∧
    spec_insert_index [⟨"a", 5⟩, ⟨"b", 5⟩, ⟨"c", 5⟩] 5 = 0 ∧
    (1 : Nat) ≠ 0 := by
  exact ⟨by decide, by decide, rfl, rfl, by decide⟩

/-- C6 (amended): on a nonempty descending-sorted sequence with a
target not strictly smaller than the last size,
`reverse_binary_search_insert_index` returns some index `i ≤ length`
that is a valid descending insertion point — every earlier entry has
size `≥` target and every entry from `i` on has size `≤` target; and
whenever no entry size equals the target it is exactly the index
computed by the spec loop (on ties the source may return a different,
equally valid, position). -/
theorem insert_index_is_valid_insertion_point (arr : List FileData)
    (target : Nat) (hne : arr.length ≠ 0) (hsort : SortedDesc arr)
    (hge : sizeAt arr (arr.length - 1) ≤ target) :
    ∃ i, reverse_binary_search_insert_index arr target = .ok (some i) ∧
      i ≤ arr.length ∧
      (∀ j, j < i → target ≤ sizeAt arr j) ∧
      (∀ j, i ≤ j → j < arr.length → sizeAt arr j ≤ target) ∧
      ((∀ j, j < arr.length → sizeAt arr j ≠ target) →
        i = spec_insert_index arr target) := by
  have hrbs : reverse_binary_search_insert_index arr target =
      .ok (some (rbsLoop arr target arr.length 0 arr.length)) := by
    unfold reverse_binary_search_insert_index
    rw [if_neg hne, if_neg (by omega)]
  obtain ⟨_, hb2, hb3, hb4⟩ := rbsLoop_spec arr target
    ((sortedDesc_iff_sizeAt arr).mp hsort)
    arr.length 0 arr.length (by omega) (Nat.zero_le _) (le_refl _)
    (fun j hj => absurd hj (Nat.not_lt_zero j))
    (fun j hj hjlen => absurd hjlen (by omega))
  refine ⟨rbsLoop arr target arr.length 0 arr.length, hrbs, hb2, hb3, hb4, ?_⟩
  intro hnot
  unfold spec_insert_index
  exact rbsLoop_eq_specSearchLoop arr target hnot arr.length 0 arr.length
    (le_refl _)

/-- C6 witness: sizes `[5, 3]`, target 4 — insertion point 1, matching
the spec loop since 4 occurs nowhere. -/
theorem insert_index_is_valid_insertion_point_witness :
    ∃ i, reverse_binary_search_insert_index [⟨"a", 5⟩, ⟨"b", 3⟩] 4 =
        .ok (some i) ∧
      i ≤ 2 ∧
      (∀ j, j < i → 4 ≤ sizeAt [⟨"a", 5⟩, ⟨"b", 3⟩] j) ∧
      (∀ j, i ≤ j → j < 2 → sizeAt [⟨"a", 5⟩, ⟨"b", 3⟩] j ≤ 4) ∧
      ((∀ j, j < 2 → sizeAt [⟨"a", 5⟩, ⟨"b", 3⟩] j ≠ 4) →
        i = spec_insert_index [⟨"a", 5⟩, ⟨"b", 3⟩] 4) :=
  insert_index_is_valid_insertion_point [⟨"a", 5⟩, ⟨"b", 3⟩] 4
    (by decide) (by decide) (by decide)

/-- C7: after any completed run of offers (no panic), the tracker
invariant holds: at most `K` entries, and once `reordered` is set the
sequence is descending-sorted by size.  Quantifying over all streams
covers the state after each completed offer, since every prefix of a
stream is itself a stream. -/
theorem tracker_invariant_holds (K : Nat) (stream : List FileData)
    (t : TrackerState) (h : runAll K stream = .ok t) :
    t.files.length ≤ K ∧ (t.reordered = true → SortedDesc t.files) := by
  obtain ⟨h1, h2⟩ := runFrom_inv K stream ⟨[], false⟩ t h (Nat.zero_le K)
    (fun hro => Bool.noConfusion hro)
  exact ⟨h1, fun hro => (h2 hro).2⟩

/-- C7 witness: `K = 2` with three offers; the final state has two
entries and is sorted descending. -/
theorem tracker_invariant_holds_witness :
    (⟨[⟨"a", 3⟩, ⟨"b", 1⟩], true⟩ : TrackerState).files.length ≤ 2 ∧
    ((⟨[⟨"a", 3⟩, ⟨"b", 1⟩], true⟩ : TrackerState).reordered = true →
      SortedDesc (⟨[⟨"a", 3⟩, ⟨"b", 1⟩], true⟩ : TrackerState).files) :=
  tracker_invariant_holds 2 [⟨"a", 3⟩, ⟨"b", 1⟩, ⟨"c", 5⟩]
    ⟨[⟨"a", 3⟩, ⟨"b", 1⟩], true⟩ rfl

/-- C8: in the sorted state (length `= K ≥ 1`, `reordered` set,
descending order), offering an entry whose size is strictly smaller
than the size of the last element (the current minimum) leaves the
tracker state exactly unchanged. -/
theorem sorted_rejects_smaller_than_minimum (K : Nat) (s : TrackerState)
    (e : FileData) (hK : 1 ≤ K) (hlen : s.files.length = K)
    (hro : s.reordered = true) (_hsort : SortedDesc s.files)
    (hmin : e.size < sizeAt s.files (s.files.length - 1)) :
    step K s e = .ok s := by
  have h1 : ¬ s.files.length < K := by omega
  have h2 : ¬ (s.files.length = K ∧ s.reordered = false) := by simp [hro]
  have hne : s.files.length ≠ 0 := by omega
  unfold step
  rw [if_neg h1, if_neg h2]
  have hnone : reverse_binary_search_insert_index s.files e.size = .ok none := by
    unfold reverse_binary_search_insert_index
    rw [if_neg hne, if_pos hmin]
  rw [hnone]

/-- C8 witness: sorted state `[5, 3]` at `K = 2`; offering size 2 is
rejected without change. -/
theorem sorted_rejects_smaller_than_minimum_witness :
    step 2 ⟨[⟨"a", 5⟩, ⟨"b", 3⟩], true⟩ ⟨"c", 2⟩ =
      .ok ⟨[⟨"a", 5⟩, ⟨"b", 3⟩], true⟩ :=
  sorted_rejects_smaller_than_minimum 2 ⟨[⟨"a", 5⟩, ⟨"b", 3⟩], true⟩ ⟨"c", 2⟩
    (by decide) rfl rfl (by decide) (by decide)

/-- C9 counterexample: with `--path` naming a nonexistent path the
process prints the error to the error stream and stops before any
traversal, but `main` just returns, so the process terminates with
exit status 0 — a success status, not the non-zero-equivalent failure
the claim requires. -/
theorem invalid_path_exits_with_status_zero :
    cliPhase ["fatass", "--path", "/nonexistent"] (fun _ => false) =
      .earlyError "Error: Invalid path. Please provide a valid path." ∧
    reachesTraversal
      (cliPhase ["fatass", "--path", "/nonexistent"] (fun _ => false)) = false ∧
    exitCode
      (cliPhase ["fatass", "--path", "/nonexistent"] (fun _ => false)) = 0 := by
  exact ⟨rfl, rfl, rfl⟩

/-- C9 (amended): if the value after the first `--path`/`-p` does not
exist, or (with the path check passed) the value after the first
`--count`/`-c` does not parse as a non-negative integer, and no help
flag is present, then the process writes the corresponding error
message to the error stream and terminates before any traversal — but
with exit status 0, not a failure status. -/
theorem invalid_args_error_before_traversal (args : List String)
    (pathExists : String → Bool) :
    (findFlag args "--help" "-h" = none →
      ∀ i v, findFlag args "--path" "-p" = some i →
        args.get? (i + 1) = some v → pathExists v = false →
        cliPhase args pathExists =
          .earlyError "Error: Invalid path. Please provide a valid path." ∧
        reachesTraversal (cliPhase args pathExists) = false ∧
        exitCode (cliPhase args pathExists) = 0) ∧
    (findFlag args "--help" "-h" = none →
      (∀ i, findFlag args "--path" "-p" = some i →
        ∃ v, args.get? (i + 1) = some v ∧ pathExists v = true) →
      ∀ i v, findFlag args "--count" "-c" = some i →
        args.get? (i + 1) = some v → parseUsize v = none →
        cliPhase args pathExists =
          .earlyError "Error: Invalid count value. Please provide a valid number." ∧
        reachesTraversal (cliPhase args pathExists) = false ∧
        exitCode (cliPhase args pathExists) = 0) := by
  constructor
  · intro hhelp i v hflag hval hex
    have hphase : cliPhase args pathExists =
        .earlyError "Error: Invalid path. Please provide a valid path." := by
      unfold cliPhase
      simp only [hhelp, hflag, hval, hex]
      rfl
    exact ⟨hphase, by rw [hphase]; rfl, by rw [hphase]; rfl⟩
  · intro hhelp hpath i v hflag hval hparse
    have hphase : cliPhase args pathExists =
        .earlyError "Error: Invalid count value. Please provide a valid number." := by
      unfold cliPhase
      cases hpf : findFlag args "--path" "-p" with
      | none =>
        simp only [hhelp, hpf, hflag, hval, hparse]
      | some j =>
        obtain ⟨w, hw1, hw2⟩ := hpath j hpf
        simp only [hhelp, hpf, hw1, hw2, hflag, hval, hparse]
        rfl
    exact ⟨hphase, by rw [hphase]; rfl, by rw [hphase]; rfl⟩

/-- C9 witness: the amended claim applied to
`fatass --count 12abc`. -/
theorem invalid_args_error_before_traversal_witness :
    cliPhase ["fatass", "--count", "12abc"] (fun _ => true) =
      .earlyError "Error: Invalid count value. Please provide a valid number." ∧
    reachesTraversal
      (cliPhase ["fatass", "--count", "12abc"] (fun _ => true)) = false ∧
    exitCode (cliPhase ["fatass", "--count", "12abc"] (fun _ => true)) = 0 :=
  (invalid_args_error_before_traversal ["fatass", "--count", "12abc"]
    (fun _ => true)).2
    rfl (fun _ hi => Option.noConfusion hi) 1 "12abc" rfl rfl rfl

theorem roundToF64_eq_self {n : Nat} (h : n ≤ 2 ^ 53) : roundToF64 n = n := by
  unfold roundToF64
  rw [if_pos h]

/-- C10 counterexample: at byte count `2^53 + 1` the cast
`self.size as f64` rounds to `2^53` (tie, rounded to the even
neighbour), the scaled value is exactly 8, and the program prints
"8 PB"; the spec algorithm applied to the exact byte count yields
"8.00 PB" (the exact scaled value `8 + 2^-50` is not an integer). -/
theorem cast_rounding_changes_size_string :
    (FileData.mk "x" (2 ^ 53 + 1)).get_str_size = "8 PB" ∧
    spec_format_size (2 ^ 53 + 1) = "8.00 PB" ∧
    "8 PB" ≠ "8.00 PB" := by
  exact ⟨rfl, rfl, by decide⟩

/-- C10 (amended): the human-readable size string follows the spec
algorithm — divide by 1024 while the value is at least 1024, advancing
through the unit suffixes, render with 0 decimal places when the
scaled value is an exact integer and 2 otherwise, then the unit —
applied to the f64 value of the byte count, that is, the count rounded
to the nearest f64-representable integer (ties to even).  The cast is
exact below `2^53`, so there the spec algorithm applies to the byte
count itself; in particular 1536 bytes gives "1.50 KB", 1024 bytes
gives "1 KB", and 999 bytes gives "999 Bytes". -/
theorem get_str_size_matches_spec_after_cast :
    (∀ f : FileData, f.get_str_size = spec_format_size (roundToF64 f.size)) ∧
    (∀ f : FileData, f.size < 2 ^ 53 →
      f.get_str_size = spec_format_size f.size) ∧
    (FileData.mk "a" 1536).get_str_size = "1.50 KB" ∧
    (FileData.mk "b" 1024).get_str_size = "1 KB" ∧
    (FileData.mk "c" 999).get_str_size = "999 Bytes" := by
  have hall : ∀ f : FileData,
      f.get_str_size = spec_format_size (roundToF64 f.size) := by
    intro f
    simp only [FileData.get_str_size, spec_format_size, sizeUnits,
      sizeLoop_eq_specScale]
  refine ⟨hall, ?_, by decide, by decide, by decide⟩
  intro f hf
  rw [hall f, roundToF64_eq_self (le_of_lt hf)]

/-- C10 witness: at 2048 bytes (below `2^53`, cast exact) the string
matches the spec algorithm on the byte count itself. -/
theorem get_str_size_matches_spec_after_cast_witness :
    (FileData.mk "w" 2048).get_str_size = spec_format_size 2048 :=
  get_str_size_matches_spec_after_cast.2.1 (FileData.mk "w" 2048) (by decide)
